import Mathlib

/-!
Shallow embedding of the sawbuck/syzygy ASan heap-corruption checker core
(`HeapChecker::IsHeapCorrupt`, `ShadowWalker`, the block checksum engine and
the corrupt-range aggregation), as exercised by
`syzygy/agent/asan/asan_heap_checker_unittest.cc`.  The repository ships only
the unit test of this subsystem, so the checker itself is modelled from the
design specification; every such definition carries a `Modelled from the
spec:` doc comment naming the missing source.
-/

/-- Modelled from the spec: allocation state of a tracked block
(allocated / quarantined / freed), a header field written by the
out-of-scope allocator (missing source: block metadata definitions). -/
inductive BlockState where
  | allocated
  | quarantined
  | freed
deriving DecidableEq, Repr

/-- Numeric encoding of the state field as stored in the header. -/
def BlockState.code : BlockState → Nat
  | .allocated => 0
  | .quarantined => 1
  | .freed => 2

/-- Modelled from the spec: one tracked heap block, i.e. the header fields
(magic sentinel, integrity checksum, sizes, allocation state), the body
bytes and the trailer bytes, situated at `address` in the tracked address
space (missing source: `BlockHeader` / `BlockInfo` definitions). -/
structure Block where
  address : Nat
  header_size : Nat
  magic : Nat
  checksum : Nat
  state : BlockState
  body : List Nat
  trailer : List Nat
deriving DecidableEq, Repr

/-- Total byte extent of a block, header through trailer. -/
def blockExtent (b : Block) : Nat :=
  b.header_size + b.body.length + b.trailer.length

/-- One-past-the-end address of a block. -/
def blockEnd (b : Block) : Nat :=
  b.address + blockExtent b

/-- Modelled from the spec: the fixed magic sentinel a valid block header
carries (missing source: block constants; the 16-bit value is the block
header signature). -/
def kBlockHeaderMagic : Nat := 0xCA80

/-- One step of the digest accumulation, a stable cheap hash over a byte
sequence, truncated to 32 bits. -/
def hashStep (acc x : Nat) : Nat :=
  (acc * 257 + x) % 4294967296

/-- Digest of a byte sequence. -/
def digestBytes (l : List Nat) : Nat :=
  List.foldl hashStep 0 l

/-- The serialized content the checksum covers: the header fields other
than the checksum itself (magic, sizes, state) followed by the trailer
bytes. -/
def checksummedBytes (b : Block) : List Nat :=
  b.magic :: b.header_size :: b.body.length :: b.trailer.length ::
    b.state.code :: b.trailer

/-- Modelled from the spec: `ChecksumEngine::Compute` — digest over a
block's header fields and trailer bytes, excluding the digest field
itself (missing source: the checksum engine / `BlockSetChecksum`). -/
def ChecksumEngine.Compute (b : Block) : Nat :=
  digestBytes (checksummedBytes b)

/-- Modelled from the spec: `ChecksumEngine::Verify` — recomputes the
digest and compares it with the stored checksum. -/
def ChecksumEngine.Verify (b : Block) : Bool :=
  b.checksum == ChecksumEngine.Compute b

/-- A block is valid when its magic equals the sentinel and its stored
checksum matches the recomputed digest; any other outcome classifies the
block as corrupt (magic and checksum causes are not distinguished). -/
def isBlockValid (b : Block) : Bool :=
  (b.magic == kBlockHeaderMagic) && ChecksumEngine.Verify b

/-- Modelled from the spec: `ShadowWalker` state — a cursor over an
address range `[range_begin, range_end)` with a scan direction
(missing source: the shadow walker). -/
structure ShadowWalker where
  reverse : Bool
  range_begin : Nat
  range_end : Nat
  cursor : Nat
deriving DecidableEq, Repr

/-- Modelled from the spec: walker construction — the cursor starts at
the range start for a forward walk and at the range end for a reverse
walk. -/
def ShadowWalker.init (reverse : Bool) (range_begin range_end : Nat) :
    ShadowWalker :=
  ⟨reverse, range_begin, range_end,
    if reverse then range_end else range_begin⟩

/-- First (least-address, leftmost on ties) block header found in the
shadow whose header address lies in `[lo, hi)`. -/
def findFirstHeader (lo hi : Nat) : List Block → Option Block
  | [] => none
  | b :: rest =>
    match findFirstHeader lo hi rest with
    | none => if lo ≤ b.address ∧ b.address < hi then some b else none
    | some c =>
      if lo ≤ b.address ∧ b.address < hi then
        if b.address ≤ c.address then some b else some c
      else some c

/-- Last (greatest-address) block header found in the shadow whose header
address lies in `[lo, hi)`. -/
def findLastHeader (lo hi : Nat) : List Block → Option Block
  | [] => none
  | b :: rest =>
    match findLastHeader lo hi rest with
    | none => if lo ≤ b.address ∧ b.address < hi then some b else none
    | some c =>
      if lo ≤ b.address ∧ b.address < hi then
        if c.address ≤ b.address then some b else some c
      else some c

/-- Modelled from the spec: `ShadowWalker::Next` — skips non-header
granules from the cursor on, yields the next block header before the
range boundary and advances the cursor past the yielded block; `none`
models the `false` return once no further header exists (missing source:
the shadow walker). -/
def ShadowWalker.next (shadow : List Block) (w : ShadowWalker) :
    Option (Block × ShadowWalker) :=
  if w.reverse then
    match findLastHeader w.range_begin w.cursor shadow with
    | none => none
    | some b => some (b, { w with cursor := b.address })
  else
    match findFirstHeader w.cursor w.range_end shadow with
    | none => none
    | some b => some (b, { w with cursor := blockEnd b })

/-- Fuelled iteration of `ShadowWalker.next`, collecting the yielded
blocks. -/
def ShadowWalker.walk (shadow : List Block) :
    ShadowWalker → Nat → List Block
  | _, 0 => []
  | w, fuel + 1 =>
    match w.next shadow with
    | none => []
    | some (b, w2) => b :: w2.walk shadow fuel

/-- All blocks yielded by a walker over `[range_begin, range_end)`.  The
fuel `shadow.length + 1` suffices: each yielded block is a distinct
element of the shadow. -/
def walkAll (shadow : List Block) (reverse : Bool)
    (range_begin range_end : Nat) : List Block :=
  (ShadowWalker.init reverse range_begin range_end).walk shadow
    (shadow.length + 1)

/-- Upper bound of the tracked heap address space. -/
def trackedEnd (heap : List Block) : Nat :=
  List.foldl (fun m b => max m (blockEnd b)) 0 heap

/-- Modelled from the spec: the full-heap walk `IsHeapCorrupt` performs —
a forward `ShadowWalker` over the entire tracked heap address space,
visiting every block regardless of allocation/quarantine state (missing
source: the heap checker). -/
def heapWalk (heap : List Block) : List Block :=
  walkAll heap false 0 (trackedEnd heap)

/-- Output record of the checker: one contiguous corrupted region —
start address of its first corrupted block, byte length through the end
of its last corrupted block, and the number of corrupted blocks merged. -/
structure AsanCorruptBlockRange where
  address : Nat
  length : Nat
  block_count : Nat
deriving DecidableEq, Repr

/-- One-past-the-end address of a corrupt range. -/
def rangeEnd (r : AsanCorruptBlockRange) : Nat :=
  r.address + r.length

/-- A range covers a block when the block's header-through-trailer bytes
lie inside the range. -/
def coversBlock (r : AsanCorruptBlockRange) (b : Block) : Prop :=
  r.address ≤ b.address ∧ blockEnd b ≤ rangeEnd r

/-- A fresh range opened at a corrupted block's header address. -/
def newRange (b : Block) : AsanCorruptBlockRange :=
  ⟨b.address, blockExtent b, 1⟩

/-- Extension of the open range by an immediately adjacent corrupted
block: the length grows by the block's extent and the block count by
one. -/
def extendRange (r : AsanCorruptBlockRange) (b : Block) :
    AsanCorruptBlockRange :=
  ⟨r.address, r.length + blockExtent b, r.block_count + 1⟩

/-- Modelled from the spec: the corrupt-range aggregation state machine
of `HeapChecker::IsHeapCorrupt` over the walked block sequence.  The
first argument is the open range (`none` = NoOpenRange).  A valid block
closes the open range; a corrupted block extends the open range when its
header address is immediately adjacent to the open range's end, and
otherwise closes it and opens a new single-block range; walk exhaustion
closes any still-open range (missing source: the heap checker). -/
def buildRanges : Option AsanCorruptBlockRange → List Block →
    List AsanCorruptBlockRange
  | none, [] => []
  | some r, [] => [r]
  | open?, b :: rest =>
    if isBlockValid b then
      match open? with
      | none => buildRanges none rest
      | some r => r :: buildRanges none rest
    else
      match open? with
      | none => buildRanges (some (newRange b)) rest
      | some r =>
        if rangeEnd r = b.address then
          buildRanges (some (extendRange r b)) rest
        else
          r :: buildRanges (some (newRange b)) rest

/-- Modelled from the spec: `HeapChecker::IsHeapCorrupt` — walks the
whole tracked heap, aggregates adjacent corrupted blocks into ranges and
returns true iff the range sequence is non-empty (missing source: the
heap checker). -/
def HeapChecker.IsHeapCorrupt (heap : List Block) :
    Bool × List AsanCorruptBlockRange :=
  (!(buildRanges none (heapWalk heap)).isEmpty,
    buildRanges none (heapWalk heap))

/-- Modelled from the spec: one `IsHeapCorrupt` call as observed by the
caller, in explicit state-passing style — the caller supplies the heap
and its `corrupt_ranges` container; the call replaces (never appends to)
the container and performs only non-mutating reads of the heap, which is
returned unchanged as the final component (missing source: the heap
checker). -/
def HeapChecker.IsHeapCorruptCall (heap : List Block)
    (corrupt_ranges : List AsanCorruptBlockRange) :
    Bool × List AsanCorruptBlockRange × List Block :=
  ((HeapChecker.IsHeapCorrupt heap).1, (HeapChecker.IsHeapCorrupt heap).2,
    heap)

/-- Bit-complement of the 16-bit magic field, the corruption injected by
the `IsHeapCorruptInvalidMagicNumber` test. -/
def complementMagic (b : Block) : Block :=
  { b with magic := b.magic ^^^ 0xFFFF }

/-- Overwrite of the checksum header field, leaving all other bytes
unchanged. -/
def setBlockChecksum (b : Block) (c : Nat) : Block :=
  { b with checksum := c }

/-- Mutation of one data byte covered by the digest (trailer byte `j`),
leaving the checksum field at its stale value. -/
def bumpTrailerByte (b : Block) (j : Nat) : Block :=
  { b with trailer := b.trailer.set j ((b.trailer.getD j 0 + 1) % 256) }

/-- `a` lies entirely before `b` in the address space (no overlap). -/
def blockBefore (a b : Block) : Prop :=
  blockEnd a ≤ b.address

/-- Executable well-formedness of a heap presented in address order:
every block has positive extent and each block ends at or before the
next block's header address. -/
def sortedWf : List Block → Bool
  | [] => true
  | [a] => decide (0 < blockExtent a)
  | a :: b :: rest =>
    decide (0 < blockExtent a) && decide (blockEnd a ≤ b.address) &&
      sortedWf (b :: rest)

/-! ### Lemmas about `findFirstHeader` -/

theorem findFirstHeader_cons_none {lo hi : Nat} {rest : List Block}
    (x : Block) (h : findFirstHeader lo hi rest = none) :
    findFirstHeader lo hi (x :: rest) =
      if lo ≤ x.address ∧ x.address < hi then some x else none := by
  simp only [findFirstHeader, h]

theorem findFirstHeader_cons_some {lo hi : Nat} {rest : List Block}
    {c : Block} (x : Block) (h : findFirstHeader lo hi rest = some c) :
    findFirstHeader lo hi (x :: rest) =
      if lo ≤ x.address ∧ x.address < hi then
        if x.address ≤ c.address then some x else some c
      else some c := by
  simp only [findFirstHeader, h]

theorem findFirstHeader_none_forall (lo hi : Nat) :
    ∀ l : List Block, findFirstHeader lo hi l = none →
      ∀ c ∈ l, ¬(lo ≤ c.address ∧ c.address < hi) := by
  intro l
  induction l with
  | nil => intro _ c hc; simp at hc
  | cons x rest ih =>
    intro h c hc
    cases hr : findFirstHeader lo hi rest with
    | none =>
      rw [findFirstHeader_cons_none x hr] at h
      by_cases hx : lo ≤ x.address ∧ x.address < hi
      · rw [if_pos hx] at h; exact absurd h (by simp)
      · rcases List.mem_cons.mp hc with rfl | hcr
        · exact hx
        · exact ih hr c hcr
    | some d =>
      rw [findFirstHeader_cons_some x hr] at h
      by_cases hx : lo ≤ x.address ∧ x.address < hi
      · rw [if_pos hx] at h
        by_cases hxd : x.address ≤ d.address
        · rw [if_pos hxd] at h; exact absurd h (by simp)
        · rw [if_neg hxd] at h; exact absurd h (by simp)
      · rw [if_neg hx] at h; exact absurd h (by simp)

theorem findFirstHeader_none_of_forall (lo hi : Nat) :
    ∀ l : List Block, (∀ c ∈ l, ¬(lo ≤ c.address ∧ c.address < hi)) →
      findFirstHeader lo hi l = none := by
  intro l
  induction l with
  | nil => intro _; rfl
  | cons x rest ih =>
    intro h
    have hrest : findFirstHeader lo hi rest = none :=
      ih fun c hc => h c (List.mem_cons_of_mem _ hc)
    rw [findFirstHeader_cons_none x hrest,
      if_neg (h x (List.mem_cons_self _ _))]

theorem findFirstHeader_some_spec (lo hi : Nat) :
    ∀ (l : List Block) (b : Block), findFirstHeader lo hi l = some b →
      b ∈ l ∧ lo ≤ b.address ∧ b.address < hi ∧
        ∀ c ∈ l, lo ≤ c.address → c.address < hi → b.address ≤ c.address := by
  intro l
  induction l with
  | nil => intro b h; simp [findFirstHeader] at h
  | cons x rest ih =>
    intro b h
    cases hr : findFirstHeader lo hi rest with
    | none =>
      rw [findFirstHeader_cons_none x hr] at h
      have hnone := findFirstHeader_none_forall lo hi rest hr
      by_cases hx : lo ≤ x.address ∧ x.address < hi
      · rw [if_pos hx] at h
        cases h
        refine ⟨List.mem_cons_self _ _, hx.1, hx.2, ?_⟩
        intro c hc hc1 hc2
        rcases List.mem_cons.mp hc with rfl | hcr
        · exact Nat.le_refl _
        · exact absurd ⟨hc1, hc2⟩ (hnone c hcr)
      · rw [if_neg hx] at h; exact absurd h (by simp)
    | some c =>
      rw [findFirstHeader_cons_some x hr] at h
      rcases ih c hr with ⟨hcm, hc1, hc2, hcmin⟩
      by_cases hx : lo ≤ x.address ∧ x.address < hi
      · rw [if_pos hx] at h
        by_cases hxc : x.address ≤ c.address
        · rw [if_pos hxc] at h
          cases h
          refine ⟨List.mem_cons_self _ _, hx.1, hx.2, ?_⟩
          intro d hd hd1 hd2
          rcases List.mem_cons.mp hd with rfl | hdr
          · exact Nat.le_refl _
          · exact Nat.le_trans hxc (hcmin d hdr hd1 hd2)
        · rw [if_neg hxc] at h
          cases h
          refine ⟨List.mem_cons_of_mem _ hcm, hc1, hc2, ?_⟩
          intro d hd hd1 hd2
          rcases List.mem_cons.mp hd with rfl | hdr
          · exact Nat.le_of_not_le hxc
          · exact hcmin d hdr hd1 hd2
      · rw [if_neg hx] at h
        cases h
        refine ⟨List.mem_cons_of_mem _ hcm, hc1, hc2, ?_⟩
        intro d hd hd1 hd2
        rcases List.mem_cons.mp hd with rfl | hdr
        · exact absurd ⟨hd1, hd2⟩ hx
        · exact hcmin d hdr hd1 hd2

theorem findFirstHeader_eq_none_iff (lo hi : Nat) (l : List Block) :
    findFirstHeader lo hi l = none ↔
      ∀ c ∈ l, ¬(lo ≤ c.address ∧ c.address < hi) := by
  constructor
  · exact findFirstHeader_none_forall lo hi l
  · exact findFirstHeader_none_of_forall lo hi l

/-! ### Lemmas about the forward walker -/

theorem ShadowWalker.next_forward_none {w : ShadowWalker}
    (shadow : List Block) (hrev : w.reverse = false)
    (h : findFirstHeader w.cursor w.range_end shadow = none) :
    w.next shadow = none := by
  simp [ShadowWalker.next, hrev, h]

theorem ShadowWalker.next_forward_some {w : ShadowWalker} {b : Block}
    (shadow : List Block) (hrev : w.reverse = false)
    (h : findFirstHeader w.cursor w.range_end shadow = some b) :
    w.next shadow = some (b, { w with cursor := blockEnd b }) := by
  simp [ShadowWalker.next, hrev, h]

theorem ShadowWalker.next_forward_inv {w w2 : ShadowWalker} {b : Block}
    (shadow : List Block) (hrev : w.reverse = false)
    (h : w.next shadow = some (b, w2)) :
    findFirstHeader w.cursor w.range_end shadow = some b ∧
      w2 = { w with cursor := blockEnd b } := by
  cases hf : findFirstHeader w.cursor w.range_end shadow with
  | none =>
    rw [ShadowWalker.next_forward_none shadow hrev hf] at h
    exact absurd h (by simp)
  | some c =>
    rw [ShadowWalker.next_forward_some shadow hrev hf] at h
    injection h with h
    injection h with h1 h2
    subst h1
    exact ⟨rfl, h2.symm⟩

theorem ShadowWalker.walk_zero (shadow : List Block) (w : ShadowWalker) :
    w.walk shadow 0 = [] := rfl

theorem ShadowWalker.walk_succ_none {w : ShadowWalker}
    (shadow : List Block) (fuel : Nat) (h : w.next shadow = none) :
    w.walk shadow (fuel + 1) = [] := by
  simp [ShadowWalker.walk, h]

theorem ShadowWalker.walk_succ_some {w w2 : ShadowWalker} {b : Block}
    (shadow : List Block) (fuel : Nat) (h : w.next shadow = some (b, w2)) :
    w.walk shadow (fuel + 1) = b :: w2.walk shadow fuel := by
  simp [ShadowWalker.walk, h]

theorem walk_forward_mem (shadow : List Block) :
    ∀ (fuel : Nat) (w : ShadowWalker), w.reverse = false →
      ∀ b ∈ w.walk shadow fuel,
        b ∈ shadow ∧ w.cursor ≤ b.address ∧ b.address < w.range_end := by
  intro fuel
  induction fuel with
  | zero => intro w _ b hb; simp [ShadowWalker.walk_zero] at hb
  | succ n ih =>
    intro w hrev b hb
    cases hn : w.next shadow with
    | none =>
      rw [ShadowWalker.walk_succ_none shadow n hn] at hb
      simp at hb
    | some p =>
      obtain ⟨b0, w2⟩ := p
      obtain ⟨hf, hw2⟩ := ShadowWalker.next_forward_inv shadow hrev hn
      rw [ShadowWalker.walk_succ_some shadow n hn] at hb
      obtain ⟨hm, hlo, hhi, _⟩ :=
        findFirstHeader_some_spec w.cursor w.range_end shadow b0 hf
      rcases List.mem_cons.mp hb with rfl | hbtail
      · exact ⟨hm, hlo, hhi⟩
      · have hrev2 : w2.reverse = false := by rw [hw2]; exact hrev
        obtain ⟨h1, h2, h3⟩ := ih w2 hrev2 b hbtail
        refine ⟨h1, ?_, ?_⟩
        · have hc2 : w2.cursor = blockEnd b0 := by rw [hw2]
          have : w.cursor ≤ blockEnd b0 :=
            Nat.le_trans hlo (Nat.le_add_right _ _)
          exact Nat.le_trans this (hc2 ▸ h2)
        · have he2 : w2.range_end = w.range_end := by rw [hw2]
          exact he2 ▸ h3

theorem walk_forward_pairwise (shadow : List Block)
    (hext : ∀ b ∈ shadow, 0 < blockExtent b) :
    ∀ (fuel : Nat) (w : ShadowWalker), w.reverse = false →
      (w.walk shadow fuel).Pairwise
        (fun a b => a.address < b.address ∧ blockEnd a ≤ b.address) := by
  intro fuel
  induction fuel with
  | zero => intro w _; simp [ShadowWalker.walk_zero]
  | succ n ih =>
    intro w hrev
    cases hn : w.next shadow with
    | none => rw [ShadowWalker.walk_succ_none shadow n hn]; simp
    | some p =>
      obtain ⟨b0, w2⟩ := p
      obtain ⟨hf, hw2⟩ := ShadowWalker.next_forward_inv shadow hrev hn
      rw [ShadowWalker.walk_succ_some shadow n hn]
      obtain ⟨hm, _, _, _⟩ :=
        findFirstHeader_some_spec w.cursor w.range_end shadow b0 hf
      have hrev2 : w2.reverse = false := by rw [hw2]; exact hrev
      refine List.pairwise_cons.mpr ⟨?_, ih w2 hrev2⟩
      intro c hc
      obtain ⟨_, hcur, _⟩ := walk_forward_mem shadow n w2 hrev2 c hc
      have hc2 : w2.cursor = blockEnd b0 := by rw [hw2]
      have hend : blockEnd b0 ≤ c.address := hc2 ▸ hcur
      have hlt : b0.address < blockEnd b0 :=
        Nat.lt_add_of_pos_right (hext b0 hm)
      exact ⟨Nat.lt_of_lt_of_le hlt hend, hend⟩

/-! ### The forward walk of a sorted well-formed shadow -/

theorem filter_ge_split (lo : Nat) :
    ∀ (l : List Block) (b : Block),
      l.Pairwise blockBefore → (∀ c ∈ l, 0 < blockExtent c) →
      b ∈ l → lo ≤ b.address →
      (∀ c ∈ l, lo ≤ c.address → b.address ≤ c.address) →
      l.filter (fun c => decide (lo ≤ c.address)) =
        b :: l.filter (fun c => decide (blockEnd b ≤ c.address)) := by
  intro l
  induction l with
  | nil => intro b _ _ hb; simp at hb
  | cons x rest ih =>
    intro b hp he hb hlo hmin
    rcases List.mem_cons.mp hb with rfl | hbr
    · rw [List.filter_cons_of_pos (by simpa using hlo)]
      have hbe : b.address < blockEnd b :=
        Nat.lt_add_of_pos_right (he b (List.mem_cons_self _ _))
      rw [List.filter_cons_of_neg (by simpa using Nat.not_le.mpr hbe)]
      have hall : ∀ c ∈ rest, blockEnd b ≤ c.address := fun c hc =>
        (List.pairwise_cons.mp hp).1 c hc
      have h1 : rest.filter (fun c => decide (lo ≤ c.address)) = rest :=
        List.filter_eq_self.mpr fun c hc => by
          have := hall c hc
          simp only [decide_eq_true_eq]
          exact Nat.le_trans hlo (Nat.le_trans (Nat.le_of_lt hbe) this)
      have h2 : rest.filter (fun c => decide (blockEnd b ≤ c.address)) =
          rest :=
        List.filter_eq_self.mpr fun c hc => by
          simpa using hall c hc
      rw [h1, h2]
    · have hpx := List.pairwise_cons.mp hp
      have hxb : blockEnd x ≤ b.address := hpx.1 b hbr
      have hex : x.address < blockEnd x :=
        Nat.lt_add_of_pos_right (he x (List.mem_cons_self _ _))
      have hxlt : ¬ lo ≤ x.address := by
        intro hlox
        have hmx := hmin x (List.mem_cons_self _ _) hlox
        exact absurd (Nat.lt_of_lt_of_le hex hxb) (Nat.not_lt.mpr hmx)
      rw [List.filter_cons_of_neg (by simpa using hxlt)]
      have hxend : ¬ blockEnd b ≤ x.address := by
        intro hbx
        have hbb : b.address < blockEnd b :=
          Nat.lt_add_of_pos_right (he b (List.mem_cons_of_mem _ hbr))
        have : blockEnd b ≤ b.address :=
          Nat.le_trans hbx (Nat.le_trans (Nat.le_of_lt hex) hxb)
        exact absurd hbb (Nat.not_lt.mpr this)
      rw [List.filter_cons_of_neg (by simpa using hxend)]
      exact ih b hpx.2 (fun c hc => he c (List.mem_cons_of_mem _ hc)) hbr hlo
        (fun c hc hc2 => hmin c (List.mem_cons_of_mem _ hc) hc2)

theorem walk_forward_sorted_eq (shadow : List Block)
    (hp : shadow.Pairwise blockBefore)
    (he : ∀ c ∈ shadow, 0 < blockExtent c) :
    ∀ (fuel : Nat) (w : ShadowWalker), w.reverse = false →
      (∀ c ∈ shadow, c.address < w.range_end) →
      (shadow.filter (fun c => decide (w.cursor ≤ c.address))).length < fuel →
      w.walk shadow fuel =
        shadow.filter (fun c => decide (w.cursor ≤ c.address)) := by
  intro fuel
  induction fuel with
  | zero => intro w _ _ hlen; exact absurd hlen (Nat.not_lt_zero _)
  | succ n ih =>
    intro w hrev hhi hlen
    cases hf : findFirstHeader w.cursor w.range_end shadow with
    | none =>
      have hnone := findFirstHeader_none_forall _ _ _ hf
      have hfil : shadow.filter (fun c => decide (w.cursor ≤ c.address)) =
          [] := by
        rw [List.filter_eq_nil_iff]
        intro c hc
        simp only [decide_eq_true_eq]
        intro hle
        exact (hnone c hc) ⟨hle, hhi c hc⟩
      rw [ShadowWalker.walk_succ_none shadow n
        (ShadowWalker.next_forward_none shadow hrev hf), hfil]
    | some b =>
      obtain ⟨hm, hlo, hbhi, hmin⟩ := findFirstHeader_some_spec _ _ _ _ hf
      have hsplit := filter_ge_split w.cursor shadow b hp he hm hlo
        (fun c hc hcl => hmin c hc hcl (hhi c hc))
      rw [ShadowWalker.walk_succ_some shadow n
        (ShadowWalker.next_forward_some shadow hrev hf), hsplit]
      congr 1
      rw [hsplit] at hlen
      exact ih { w with cursor := blockEnd b } hrev hhi
        (Nat.lt_of_succ_lt_succ (by simpa using hlen))

/-! ### Sorted well-formedness -/

theorem sortedWf_cons_cons (a b : Block) (rest : List Block) :
    sortedWf (a :: b :: rest) =
      (decide (0 < blockExtent a) && decide (blockEnd a ≤ b.address) &&
        sortedWf (b :: rest)) := rfl

theorem sortedWf_spec : ∀ l : List Block, sortedWf l = true →
    l.Pairwise blockBefore ∧ ∀ b ∈ l, 0 < blockExtent b := by
  intro l
  induction l with
  | nil => intro _; exact ⟨List.Pairwise.nil, by simp⟩
  | cons x rest ih =>
    intro h
    cases rest with
    | nil =>
      refine ⟨List.pairwise_cons.mpr ⟨by simp, List.Pairwise.nil⟩, ?_⟩
      intro b hb
      rcases List.mem_cons.mp hb with rfl | hbr
      · simpa [sortedWf] using h
      · simp at hbr
    | cons y rest2 =>
      rw [sortedWf_cons_cons] at h
      simp only [Bool.and_eq_true, decide_eq_true_eq] at h
      obtain ⟨⟨hex, hxy⟩, hrest⟩ := h
      obtain ⟨hpr, her⟩ := ih hrest
      constructor
      · refine List.pairwise_cons.mpr ⟨?_, hpr⟩
        intro c hc
        rcases List.mem_cons.mp hc with rfl | hcr
        · exact hxy
        · have hyc : blockBefore y c := (List.pairwise_cons.mp hpr).1 c hcr
          exact Nat.le_trans hxy (Nat.le_trans (Nat.le_add_right _ _) hyc)
      · intro b hb
        rcases List.mem_cons.mp hb with rfl | hbr
        · exact hex
        · exact her b hbr

/-- Address-and-extent key of a block: all `sortedWf` reads of a block. -/
def blockKey (b : Block) : Nat × Nat := (b.address, blockExtent b)

theorem sortedWf_map_key : ∀ l1 l2 : List Block,
    l1.map blockKey = l2.map blockKey → sortedWf l1 = sortedWf l2 := by
  intro l1
  induction l1 with
  | nil =>
    intro l2 h
    cases l2 with
    | nil => rfl
    | cons y t => simp at h
  | cons x rest ih =>
    intro l2 h
    cases l2 with
    | nil => simp at h
    | cons y t =>
      simp only [List.map_cons, List.cons.injEq] at h
      obtain ⟨hxy, ht⟩ := h
      have haddr : x.address = y.address := congrArg Prod.fst hxy
      have hext : blockExtent x = blockExtent y := congrArg Prod.snd hxy
      have hbe : blockEnd x = blockEnd y := by
        unfold blockEnd; rw [haddr, hext]
      cases rest with
      | nil =>
        cases t with
        | nil => simp [sortedWf, hext]
        | cons => simp at ht
      | cons x2 rest2 =>
        cases t with
        | nil => simp at ht
        | cons y2 t2 =>
          have h2 : x2.address = y2.address := by
            simp only [List.map_cons, List.cons.injEq] at ht
            exact congrArg Prod.fst ht.1
          rw [sortedWf_cons_cons, sortedWf_cons_cons, hext, hbe, h2,
            ih (y2 :: t2) ht]

/-! ### The full-heap walk -/

theorem le_foldl_max : ∀ (l : List Block) (init : Nat),
    init ≤ List.foldl (fun m b => max m (blockEnd b)) init l := by
  intro l
  induction l with
  | nil => intro init; exact Nat.le_refl _
  | cons x rest ih =>
    intro init
    exact Nat.le_trans (Nat.le_max_left _ _) (ih (max init (blockEnd x)))

theorem blockEnd_le_foldl (b : Block) :
    ∀ (l : List Block) (init : Nat), b ∈ l →
      blockEnd b ≤ List.foldl (fun m c => max m (blockEnd c)) init l := by
  intro l
  induction l with
  | nil => intro init hb; simp at hb
  | cons x rest ih =>
    intro init hb
    rcases List.mem_cons.mp hb with rfl | hbr
    · exact Nat.le_trans (Nat.le_max_right init (blockEnd b))
        (le_foldl_max rest _)
    · exact ih _ hbr

theorem blockEnd_le_trackedEnd {heap : List Block} {b : Block}
    (hb : b ∈ heap) : blockEnd b ≤ trackedEnd heap :=
  blockEnd_le_foldl b heap 0 hb

theorem heapWalk_eq_self {heap : List Block} (h : sortedWf heap = true) :
    heapWalk heap = heap := by
  obtain ⟨hp, he⟩ := sortedWf_spec heap h
  have hfil : heap.filter (fun c => decide ((0 : Nat) ≤ c.address)) = heap :=
    List.filter_eq_self.mpr fun c _ => by simp
  have hhi : ∀ c ∈ heap, c.address < trackedEnd heap := by
    intro c hc
    exact Nat.lt_of_lt_of_le (Nat.lt_add_of_pos_right (he c hc))
      (blockEnd_le_trackedEnd hc)
  have hlen : (heap.filter
      (fun c => decide ((0 : Nat) ≤ c.address))).length < heap.length + 1 := by
    rw [hfil]; exact Nat.lt_succ_self _
  have hmain := walk_forward_sorted_eq heap hp he (heap.length + 1)
    ⟨false, 0, trackedEnd heap, 0⟩ rfl hhi hlen
  exact hmain.trans hfil

theorem heapWalk_mem {heap : List Block} :
    ∀ b ∈ heapWalk heap, b ∈ heap := by
  intro b hb
  exact (walk_forward_mem heap (heap.length + 1)
    ⟨false, 0, trackedEnd heap, 0⟩ rfl b hb).1

/-! ### Equations for `buildRanges` -/

theorem buildRanges_nil_none : buildRanges none [] = [] := rfl

theorem buildRanges_nil_some (r : AsanCorruptBlockRange) :
    buildRanges (some r) [] = [r] := rfl

theorem buildRanges_cons_valid_none {b : Block} {rest : List Block}
    (h : isBlockValid b = true) :
    buildRanges none (b :: rest) = buildRanges none rest := by
  simp [buildRanges, h]

theorem buildRanges_cons_valid_some {b : Block} {rest : List Block}
    (r : AsanCorruptBlockRange) (h : isBlockValid b = true) :
    buildRanges (some r) (b :: rest) = r :: buildRanges none rest := by
  simp [buildRanges, h]

theorem buildRanges_cons_invalid_none {b : Block} {rest : List Block}
    (h : isBlockValid b = false) :
    buildRanges none (b :: rest) = buildRanges (some (newRange b)) rest := by
  simp [buildRanges, h]

theorem buildRanges_cons_invalid_some_adj {b : Block} {rest : List Block}
    (r : AsanCorruptBlockRange) (h : isBlockValid b = false)
    (ha : rangeEnd r = b.address) :
    buildRanges (some r) (b :: rest) =
      buildRanges (some (extendRange r b)) rest := by
  simp [buildRanges, h, ha]

theorem buildRanges_cons_invalid_some_nonadj {b : Block} {rest : List Block}
    (r : AsanCorruptBlockRange) (h : isBlockValid b = false)
    (ha : ¬ rangeEnd r = b.address) :
    buildRanges (some r) (b :: rest) =
      r :: buildRanges (some (newRange b)) rest := by
  simp [buildRanges, h, ha]

/-! ### Basic facts about `buildRanges` -/

theorem buildRanges_all_valid_none :
    ∀ l : List Block, (∀ b ∈ l, isBlockValid b = true) →
      buildRanges none l = [] := by
  intro l
  induction l with
  | nil => intro _; rfl
  | cons b rest ih =>
    intro h
    rw [buildRanges_cons_valid_none (h b (List.mem_cons_self _ _))]
    exact ih fun c hc => h c (List.mem_cons_of_mem _ hc)

theorem buildRanges_all_valid_some :
    ∀ (l : List Block) (r : AsanCorruptBlockRange),
      (∀ b ∈ l, isBlockValid b = true) → buildRanges (some r) l = [r] := by
  intro l
  induction l with
  | nil => intro r _; rfl
  | cons b rest _ =>
    intro r h
    rw [buildRanges_cons_valid_some r (h b (List.mem_cons_self _ _))]
    rw [buildRanges_all_valid_none rest
      fun c hc => h c (List.mem_cons_of_mem _ hc)]

theorem buildRanges_some_ne_nil :
    ∀ (l : List Block) (r : AsanCorruptBlockRange),
      buildRanges (some r) l ≠ [] := by
  intro l
  induction l with
  | nil => intro r; simp [buildRanges_nil_some]
  | cons b rest ih =>
    intro r
    cases hv : isBlockValid b with
    | true => rw [buildRanges_cons_valid_some r hv]; simp
    | false =>
      by_cases ha : rangeEnd r = b.address
      · rw [buildRanges_cons_invalid_some_adj r hv ha]; exact ih _
      · rw [buildRanges_cons_invalid_some_nonadj r hv ha]; simp

theorem buildRanges_ne_nil_of_invalid :
    ∀ l : List Block, (∃ b ∈ l, isBlockValid b = false) →
      buildRanges none l ≠ [] := by
  intro l
  induction l with
  | nil => intro h; simp at h
  | cons b rest ih =>
    intro h
    cases hv : isBlockValid b with
    | true =>
      rw [buildRanges_cons_valid_none hv]
      obtain ⟨c, hc, hcv⟩ := h
      rcases List.mem_cons.mp hc with rfl | hcr
      · rw [hv] at hcv; exact absurd hcv (by simp)
      · exact ih ⟨c, hcr, hcv⟩
    | false =>
      rw [buildRanges_cons_invalid_none hv]
      exact buildRanges_some_ne_nil rest _

theorem buildRanges_single_invalid :
    ∀ (l1 l2 : List Block) (c : Block),
      (∀ b ∈ l1, isBlockValid b = true) →
      (∀ b ∈ l2, isBlockValid b = true) →
      isBlockValid c = false →
      buildRanges none (l1 ++ c :: l2) = [newRange c] := by
  intro l1
  induction l1 with
  | nil =>
    intro l2 c _ h2 hc
    rw [List.nil_append, buildRanges_cons_invalid_none hc]
    exact buildRanges_all_valid_some l2 (newRange c) h2
  | cons x rest ih =>
    intro l2 c h1 h2 hc
    rw [List.cons_append,
      buildRanges_cons_valid_none (h1 x (List.mem_cons_self _ _))]
    exact ih l2 c (fun b hb => h1 b (List.mem_cons_of_mem _ hb)) h2 hc

/-! ### Invariants of the range aggregation -/

theorem buildRanges_addr_lb (lo : Nat) :
    ∀ (l : List Block) (o : Option AsanCorruptBlockRange),
      (∀ r, o = some r → lo ≤ r.address) →
      (∀ b ∈ l, lo ≤ b.address) →
      ∀ q ∈ buildRanges o l, lo ≤ q.address := by
  intro l
  induction l with
  | nil =>
    intro o ho _ q hq
    cases o with
    | none => simp [buildRanges_nil_none] at hq
    | some r =>
      rw [buildRanges_nil_some] at hq
      rw [List.mem_singleton.mp hq]
      exact ho r rfl
  | cons b rest ih =>
    intro o ho hl q hq
    have hlr : ∀ c ∈ rest, lo ≤ c.address :=
      fun c hc => hl c (List.mem_cons_of_mem _ hc)
    have hlb : lo ≤ b.address := hl b (List.mem_cons_self _ _)
    cases hv : isBlockValid b with
    | true =>
      cases o with
      | none =>
        rw [buildRanges_cons_valid_none hv] at hq
        exact ih none (by simp) hlr q hq
      | some r =>
        rw [buildRanges_cons_valid_some r hv] at hq
        rcases List.mem_cons.mp hq with rfl | hq2
        · exact ho q rfl
        · exact ih none (by simp) hlr q hq2
    | false =>
      cases o with
      | none =>
        rw [buildRanges_cons_invalid_none hv] at hq
        refine ih (some (newRange b)) ?_ hlr q hq
        intro r2 hr2
        injection hr2 with hr2
        rw [← hr2]
        exact hlb
      | some r =>
        by_cases ha : rangeEnd r = b.address
        · rw [buildRanges_cons_invalid_some_adj r hv ha] at hq
          refine ih (some (extendRange r b)) ?_ hlr q hq
          intro r2 hr2
          injection hr2 with hr2
          rw [← hr2]
          exact ho r rfl
        · rw [buildRanges_cons_invalid_some_nonadj r hv ha] at hq
          rcases List.mem_cons.mp hq with rfl | hq2
          · exact ho q rfl
          · refine ih (some (newRange b)) ?_ hlr q hq2
            intro r2 hr2
            injection hr2 with hr2
            rw [← hr2]
            exact hlb

theorem rangeEnd_newRange (b : Block) :
    rangeEnd (newRange b) = blockEnd b := rfl

theorem rangeEnd_extendRange (r : AsanCorruptBlockRange) (b : Block)
    (ha : rangeEnd r = b.address) :
    rangeEnd (extendRange r b) = blockEnd b := by
  unfold rangeEnd extendRange blockEnd at *
  simp only at *
  omega

theorem buildRanges_pairwise :
    ∀ (l : List Block) (o : Option AsanCorruptBlockRange),
      l.Pairwise blockBefore → (∀ b ∈ l, 0 < blockExtent b) →
      (∀ r, o = some r → ∀ b ∈ l, rangeEnd r ≤ b.address) →
      (buildRanges o l).Pairwise (fun q1 q2 => rangeEnd q1 < q2.address) := by
  intro l
  induction l with
  | nil =>
    intro o _ _ _
    cases o with
    | none => simp [buildRanges_nil_none]
    | some r => simp [buildRanges_nil_some]
  | cons b rest ih =>
    intro o hp he ho
    have hpc := List.pairwise_cons.mp hp
    have her : ∀ c ∈ rest, 0 < blockExtent c :=
      fun c hc => he c (List.mem_cons_of_mem _ hc)
    have heb : b.address < blockEnd b :=
      Nat.lt_add_of_pos_right (he b (List.mem_cons_self _ _))
    cases hv : isBlockValid b with
    | true =>
      cases o with
      | none =>
        rw [buildRanges_cons_valid_none hv]
        exact ih none hpc.2 her (by simp)
      | some r =>
        rw [buildRanges_cons_valid_some r hv]
        refine List.pairwise_cons.mpr ⟨?_, ih none hpc.2 her (by simp)⟩
        intro q hq
        have hlb := buildRanges_addr_lb (blockEnd b) rest none (by simp)
          (fun c hc => hpc.1 c hc) q hq
        have h1 : rangeEnd r ≤ b.address := ho r rfl b (List.mem_cons_self _ _)
        exact Nat.lt_of_le_of_lt h1 (Nat.lt_of_lt_of_le heb hlb)
    | false =>
      cases o with
      | none =>
        rw [buildRanges_cons_invalid_none hv]
        refine ih (some (newRange b)) hpc.2 her ?_
        intro r2 hr2 c hc
        injection hr2 with hr2
        rw [← hr2, rangeEnd_newRange]
        exact hpc.1 c hc
      | some r =>
        by_cases ha : rangeEnd r = b.address
        · rw [buildRanges_cons_invalid_some_adj r hv ha]
          refine ih (some (extendRange r b)) hpc.2 her ?_
          intro r2 hr2 c hc
          injection hr2 with hr2
          rw [← hr2, rangeEnd_extendRange r b ha]
          exact hpc.1 c hc
        · rw [buildRanges_cons_invalid_some_nonadj r hv ha]
          have hinv : ∀ r2, some (newRange b) = some r2 →
              ∀ c ∈ rest, rangeEnd r2 ≤ c.address := by
            intro r2 hr2 c hc
            injection hr2 with hr2
            rw [← hr2, rangeEnd_newRange]
            exact hpc.1 c hc
          refine List.pairwise_cons.mpr
            ⟨?_, ih (some (newRange b)) hpc.2 her hinv⟩
          intro q hq
          have hlb := buildRanges_addr_lb b.address rest (some (newRange b))
            (fun r2 hr2 => by
              injection hr2 with hr2
              rw [← hr2]
              exact Nat.le_refl _)
            (fun c hc => Nat.le_trans (Nat.le_of_lt heb) (hpc.1 c hc)) q hq
          have h1 : rangeEnd r ≤ b.address :=
            ho r rfl b (List.mem_cons_self _ _)
          exact Nat.lt_of_lt_of_le (Nat.lt_of_le_of_ne h1 ha) hlb

theorem buildRanges_valid_excluded :
    ∀ (l : List Block) (o : Option AsanCorruptBlockRange),
      l.Pairwise blockBefore → (∀ b ∈ l, 0 < blockExtent b) →
      (∀ r, o = some r → ∀ b ∈ l, rangeEnd r ≤ b.address) →
      ∀ v ∈ l, isBlockValid v = true →
        ∀ q ∈ buildRanges o l, v.address < q.address ∨ rangeEnd q ≤ v.address := by
  intro l
  induction l with
  | nil => intro o _ _ _ v hv; simp at hv
  | cons b rest ih =>
    intro o hp he ho v hvmem hvvalid q hq
    have hpc := List.pairwise_cons.mp hp
    have her : ∀ c ∈ rest, 0 < blockExtent c :=
      fun c hc => he c (List.mem_cons_of_mem _ hc)
    have heb : b.address < blockEnd b :=
      Nat.lt_add_of_pos_right (he b (List.mem_cons_self _ _))
    rcases List.mem_cons.mp hvmem with rfl | hvr
    · -- v is the head block, hence valid
      have hlb : ∀ q2 ∈ buildRanges none rest, blockEnd v ≤ q2.address :=
        fun q2 hq2 => buildRanges_addr_lb (blockEnd v) rest none (by simp)
          (fun c hc => hpc.1 c hc) q2 hq2
      cases o with
      | none =>
        rw [buildRanges_cons_valid_none hvvalid] at hq
        exact Or.inl (Nat.lt_of_lt_of_le heb (hlb q hq))
      | some r =>
        rw [buildRanges_cons_valid_some r hvvalid] at hq
        rcases List.mem_cons.mp hq with rfl | hq2
        · exact Or.inr (ho q rfl v (List.mem_cons_self _ _))
        · exact Or.inl (Nat.lt_of_lt_of_le heb (hlb q hq2))
    · -- v occurs later in the walk
      have hbv : blockEnd b ≤ v.address := hpc.1 v hvr
      cases hv : isBlockValid b with
      | true =>
        cases o with
        | none =>
          rw [buildRanges_cons_valid_none hv] at hq
          exact ih none hpc.2 her (by simp) v hvr hvvalid q hq
        | some r =>
          rw [buildRanges_cons_valid_some r hv] at hq
          rcases List.mem_cons.mp hq with rfl | hq2
          · refine Or.inr (Nat.le_trans (ho q rfl b (List.mem_cons_self _ _))
              (Nat.le_trans (Nat.le_of_lt heb) hbv))
          · exact ih none hpc.2 her (by simp) v hvr hvvalid q hq2
      | false =>
        cases o with
        | none =>
          rw [buildRanges_cons_invalid_none hv] at hq
          refine ih (some (newRange b)) hpc.2 her ?_ v hvr hvvalid q hq
          intro r2 hr2 c hc
          injection hr2 with hr2
          rw [← hr2, rangeEnd_newRange]
          exact hpc.1 c hc
        | some r =>
          by_cases ha : rangeEnd r = b.address
          · rw [buildRanges_cons_invalid_some_adj r hv ha] at hq
            refine ih (some (extendRange r b)) hpc.2 her ?_ v hvr hvvalid q hq
            intro r2 hr2 c hc
            injection hr2 with hr2
            rw [← hr2, rangeEnd_extendRange r b ha]
            exact hpc.1 c hc
          · rw [buildRanges_cons_invalid_some_nonadj r hv ha] at hq
            rcases List.mem_cons.mp hq with rfl | hq2
            · refine Or.inr (Nat.le_trans (ho q rfl b (List.mem_cons_self _ _))
                (Nat.le_trans (Nat.le_of_lt heb) hbv))
            · refine ih (some (newRange b)) hpc.2 her ?_ v hvr hvvalid q hq2
              intro r2 hr2 c hc
              injection hr2 with hr2
              rw [← hr2, rangeEnd_newRange]
              exact hpc.1 c hc

theorem buildRanges_head_some :
    ∀ (l : List Block) (r : AsanCorruptBlockRange),
      ∃ q t, buildRanges (some r) l = q :: t ∧ q.address = r.address ∧
        rangeEnd r ≤ rangeEnd q := by
  intro l
  induction l with
  | nil => intro r; exact ⟨r, [], rfl, rfl, Nat.le_refl _⟩
  | cons b rest ih =>
    intro r
    cases hv : isBlockValid b with
    | true =>
      exact ⟨r, buildRanges none rest, buildRanges_cons_valid_some r hv, rfl,
        Nat.le_refl _⟩
    | false =>
      by_cases ha : rangeEnd r = b.address
      · obtain ⟨q, t, heq, haddr, hend⟩ := ih (extendRange r b)
        refine ⟨q, t, ?_, ?_, ?_⟩
        · rw [buildRanges_cons_invalid_some_adj r hv ha]
          exact heq
        · rw [haddr]
          rfl
        · refine Nat.le_trans ?_ hend
          unfold rangeEnd extendRange
          simp only
          omega
      · exact ⟨r, buildRanges (some (newRange b)) rest,
          buildRanges_cons_invalid_some_nonadj r hv ha, rfl, Nat.le_refl _⟩

theorem buildRanges_covers :
    ∀ (l : List Block) (o : Option AsanCorruptBlockRange),
      l.Pairwise blockBefore →
      (∀ r, o = some r → ∀ b ∈ l, rangeEnd r ≤ b.address) →
      ∀ c ∈ l, isBlockValid c = false →
        ∃ q ∈ buildRanges o l, coversBlock q c := by
  intro l
  induction l with
  | nil => intro o _ _ c hc; simp at hc
  | cons b rest ih =>
    intro o hp ho c hcmem hcinv
    have hpc := List.pairwise_cons.mp hp
    rcases List.mem_cons.mp hcmem with rfl | hcr
    · -- c is the head block, hence invalid
      cases o with
      | none =>
        rw [buildRanges_cons_invalid_none hcinv]
        obtain ⟨q, t, heq, haddr, hend⟩ := buildRanges_head_some rest (newRange c)
        rw [heq]
        refine ⟨q, List.mem_cons_self _ _, ?_, ?_⟩
        · rw [haddr]
          exact Nat.le_refl _
        · rw [← rangeEnd_newRange c]
          exact hend
      | some r =>
        by_cases ha : rangeEnd r = c.address
        · rw [buildRanges_cons_invalid_some_adj r hcinv ha]
          obtain ⟨q, t, heq, haddr, hend⟩ :=
            buildRanges_head_some rest (extendRange r c)
          rw [heq]
          refine ⟨q, List.mem_cons_self _ _, ?_, ?_⟩
          · rw [haddr]
            show r.address ≤ c.address
            rw [← ha]
            exact Nat.le_add_right _ _
          · rw [← rangeEnd_extendRange r c ha]
            exact hend
        · rw [buildRanges_cons_invalid_some_nonadj r hcinv ha]
          obtain ⟨q, t, heq, haddr, hend⟩ :=
            buildRanges_head_some rest (newRange c)
          rw [heq]
          refine ⟨q, List.mem_cons_of_mem _ (List.mem_cons_self _ _), ?_, ?_⟩
          · rw [haddr]
            exact Nat.le_refl _
          · rw [← rangeEnd_newRange c]
            exact hend
    · -- c occurs later in the walk
      cases hv : isBlockValid b with
      | true =>
        cases o with
        | none =>
          rw [buildRanges_cons_valid_none hv]
          exact ih none hpc.2 (by simp) c hcr hcinv
        | some r =>
          rw [buildRanges_cons_valid_some r hv]
          obtain ⟨q, hqmem, hqcov⟩ := ih none hpc.2 (by simp) c hcr hcinv
          exact ⟨q, List.mem_cons_of_mem _ hqmem, hqcov⟩
      | false =>
        cases o with
        | none =>
          rw [buildRanges_cons_invalid_none hv]
          refine ih (some (newRange b)) hpc.2 ?_ c hcr hcinv
          intro r2 hr2 d hd
          injection hr2 with hr2
          rw [← hr2, rangeEnd_newRange]
          exact hpc.1 d hd
        | some r =>
          by_cases ha : rangeEnd r = b.address
          · rw [buildRanges_cons_invalid_some_adj r hv ha]
            refine ih (some (extendRange r b)) hpc.2 ?_ c hcr hcinv
            intro r2 hr2 d hd
            injection hr2 with hr2
            rw [← hr2, rangeEnd_extendRange r b ha]
            exact hpc.1 d hd
          · rw [buildRanges_cons_invalid_some_nonadj r hv ha]
            have hinv : ∀ r2, some (newRange b) = some r2 →
                ∀ d ∈ rest, rangeEnd r2 ≤ d.address := by
              intro r2 hr2 d hd
              injection hr2 with hr2
              rw [← hr2, rangeEnd_newRange]
              exact hpc.1 d hd
            obtain ⟨q, hqmem, hqcov⟩ :=
              ih (some (newRange b)) hpc.2 hinv c hcr hcinv
            exact ⟨q, List.mem_cons_of_mem _ hqmem, hqcov⟩

theorem pairwise_mem_cases {α : Type} {R : α → α → Prop} :
    ∀ {l : List α}, l.Pairwise R → ∀ {a b : α}, a ∈ l → b ∈ l →
      a = b ∨ R a b ∨ R b a := by
  intro l hp
  induction hp with
  | nil => intro a b ha _; simp at ha
  | cons hhead _ ih =>
    intro a b ha hb
    rcases List.mem_cons.mp ha with rfl | ha2
    · rcases List.mem_cons.mp hb with rfl | hb2
      · exact Or.inl rfl
      · exact Or.inr (Or.inl (hhead b hb2))
    · rcases List.mem_cons.mp hb with rfl | hb2
      · exact Or.inr (Or.inr (hhead a ha2))
      · exact ih ha2 hb2

/-! ### Heap-level helpers -/

theorem isHeapCorrupt_all_valid {heap : List Block}
    (h : ∀ b ∈ heap, isBlockValid b = true) :
    HeapChecker.IsHeapCorrupt heap = (false, []) := by
  unfold HeapChecker.IsHeapCorrupt
  rw [buildRanges_all_valid_none (heapWalk heap)
    (fun b hb => h b (heapWalk_mem b hb))]
  rfl

theorem isHeapCorrupt_single_invalid {h1 h2 : List Block} {c : Block}
    (hwf : sortedWf (h1 ++ c :: h2) = true)
    (hv1 : ∀ x ∈ h1, isBlockValid x = true)
    (hv2 : ∀ x ∈ h2, isBlockValid x = true)
    (hc : isBlockValid c = false) :
    HeapChecker.IsHeapCorrupt (h1 ++ c :: h2) =
      (true, [⟨c.address, blockExtent c, 1⟩]) := by
  unfold HeapChecker.IsHeapCorrupt
  rw [heapWalk_eq_self hwf, buildRanges_single_invalid h1 h2 c hv1 hv2 hc]
  rfl

/-! ### Field mutations and their effect on validity -/

theorem complementMagic_address (b : Block) :
    (complementMagic b).address = b.address := rfl

theorem complementMagic_extent (b : Block) :
    blockExtent (complementMagic b) = blockExtent b := rfl

theorem complementMagic_involutive (b : Block) :
    complementMagic (complementMagic b) = b := by
  unfold complementMagic
  simp [Nat.xor_assoc]

theorem bumpTrailerByte_address (b : Block) (j : Nat) :
    (bumpTrailerByte b j).address = b.address := rfl

theorem bumpTrailerByte_extent (b : Block) (j : Nat) :
    blockExtent (bumpTrailerByte b j) = blockExtent b := by
  unfold blockExtent bumpTrailerByte
  simp

theorem isBlockValid_magic (b : Block) (h : isBlockValid b = true) :
    b.magic = kBlockHeaderMagic := by
  simp only [isBlockValid, Bool.and_eq_true, beq_iff_eq] at h
  exact h.1

theorem isBlockValid_complementMagic {b : Block}
    (h : isBlockValid b = true) :
    isBlockValid (complementMagic b) = false := by
  have hm : b.magic = kBlockHeaderMagic := isBlockValid_magic b h
  have hmagic : (complementMagic b).magic = kBlockHeaderMagic ^^^ 0xFFFF := by
    unfold complementMagic
    simp [hm]
  have hne : (kBlockHeaderMagic ^^^ 0xFFFF) ≠ kBlockHeaderMagic := by decide
  simp [isBlockValid, hmagic, hne]

theorem isBlockValid_bumpTrailerByte {b : Block} {j : Nat}
    (hnc : ChecksumEngine.Compute (bumpTrailerByte b j) ≠ b.checksum) :
    isBlockValid (bumpTrailerByte b j) = false := by
  have hcs : (bumpTrailerByte b j).checksum = b.checksum := rfl
  have hv : ChecksumEngine.Verify (bumpTrailerByte b j) = false := by
    unfold ChecksumEngine.Verify
    rw [hcs]
    exact beq_eq_false_iff_ne.mpr (Ne.symm hnc)
  simp [isBlockValid, hv]

theorem sortedWf_replace {h1 h2 : List Block} {b b2 : Block}
    (haddr : b2.address = b.address) (hext : blockExtent b2 = blockExtent b)
    (h : sortedWf (h1 ++ b :: h2) = true) :
    sortedWf (h1 ++ b2 :: h2) = true := by
  have hkey : (h1 ++ b2 :: h2).map blockKey = (h1 ++ b :: h2).map blockKey := by
    have : blockKey b2 = blockKey b := by
      unfold blockKey
      rw [haddr, hext]
    simp [this]
  rw [sortedWf_map_key (h1 ++ b2 :: h2) (h1 ++ b :: h2) hkey]
  exact h

/-! ### Concrete fixtures -/

/-- A raw block at address `a` with state `st`, before checksumming. -/
def wBlockBase (a : Nat) (st : BlockState) : Block :=
  { address := a, header_size := 2, magic := kBlockHeaderMagic,
    checksum := 0, state := st, body := [7], trailer := [5] }

/-- A valid block at address `a` with state `st`: the raw block with its
checksum field set to the recomputed digest. -/
def wBlockSt (a : Nat) (st : BlockState) : Block :=
  setBlockChecksum (wBlockBase a st) (ChecksumEngine.Compute (wBlockBase a st))

/-- A valid allocated block at address `a` (extent 4). -/
def wBlockAt (a : Nat) : Block := wBlockSt a .allocated

/-- A valid quarantined block at address 0 whose magic field has been
bit-complemented afterwards. -/
def wQuarantinedCorrupt : Block := complementMagic (wBlockSt 0 .quarantined)

/-! ### Claim C1 -/

/-- C1: for every uncorrupted heap state — every tracked block carries
the valid magic sentinel and a checksum matching the recomputed digest —
`IsHeapCorrupt` returns false and leaves the output `corrupt_ranges`
sequence empty. -/
theorem isHeapCorrupt_clean_heap (heap : List Block)
    (h : ∀ b ∈ heap, isBlockValid b = true) :
    HeapChecker.IsHeapCorrupt heap = (false, []) :=
  isHeapCorrupt_all_valid h

/-- Witness for C1 at a concrete one-block heap. -/
theorem isHeapCorrupt_clean_heap_witness :
    (∀ b ∈ [wBlockAt 0], isBlockValid b = true) ∧
      HeapChecker.IsHeapCorrupt [wBlockAt 0] = (false, []) :=
  ⟨by decide, isHeapCorrupt_clean_heap [wBlockAt 0] (by decide)⟩

/-! ### Claim C2 -/

/-- C2: starting from an otherwise uncorrupted (address-ordered,
well-formed) heap, corrupting exactly one block — either by mutating one
data byte covered by the digest while leaving the checksum field at its
stale value (with the test's guarantee that the recomputed digest no
longer collides with the stale checksum), or by bit-complementing the
magic field — makes `IsHeapCorrupt` return true with exactly one range
whose `block_count` is 1 and whose address/length span precisely that
block's header-through-trailer extent; restoring the corrupted field
makes a subsequent call return false. -/
theorem isHeapCorrupt_single_block_corruption
    (h1 h2 : List Block) (b : Block) (j : Nat)
    (hwf : sortedWf (h1 ++ b :: h2) = true)
    (hvalid : ∀ x ∈ h1 ++ b :: h2, isBlockValid x = true)
    (hnc : ChecksumEngine.Compute (bumpTrailerByte b j) ≠ b.checksum) :
    HeapChecker.IsHeapCorrupt (h1 ++ bumpTrailerByte b j :: h2) =
      (true, [⟨b.address, blockExtent b, 1⟩]) ∧
    HeapChecker.IsHeapCorrupt (h1 ++ complementMagic b :: h2) =
      (true, [⟨b.address, blockExtent b, 1⟩]) ∧
    HeapChecker.IsHeapCorrupt (h1 ++ b :: h2) = (false, []) := by
  have hv1 : ∀ x ∈ h1, isBlockValid x = true := fun x hx =>
    hvalid x (List.mem_append_left _ hx)
  have hv2 : ∀ x ∈ h2, isBlockValid x = true := fun x hx =>
    hvalid x (List.mem_append_right _ (List.mem_cons_of_mem _ hx))
  have hvb : isBlockValid b = true :=
    hvalid b (List.mem_append_right _ (List.mem_cons_self _ _))
  refine ⟨?_, ?_, isHeapCorrupt_all_valid hvalid⟩
  · have hres := isHeapCorrupt_single_invalid
      (sortedWf_replace (bumpTrailerByte_address b j)
        (bumpTrailerByte_extent b j) hwf)
      hv1 hv2 (isBlockValid_bumpTrailerByte hnc)
    rw [hres, bumpTrailerByte_address, bumpTrailerByte_extent]
  · have hres := isHeapCorrupt_single_invalid
      (sortedWf_replace (complementMagic_address b)
        (complementMagic_extent b) hwf)
      hv1 hv2 (isBlockValid_complementMagic hvb)
    rw [hres, complementMagic_address, complementMagic_extent]

/-- Witness for C2 at a concrete one-block heap, trailer byte 0. -/
theorem isHeapCorrupt_single_block_corruption_witness :
    sortedWf ([] ++ wBlockAt 0 :: []) = true ∧
    (∀ x ∈ [] ++ wBlockAt 0 :: [], isBlockValid x = true) ∧
    ChecksumEngine.Compute (bumpTrailerByte (wBlockAt 0) 0) ≠
      (wBlockAt 0).checksum ∧
    (HeapChecker.IsHeapCorrupt ([] ++ bumpTrailerByte (wBlockAt 0) 0 :: []) =
      (true, [⟨(wBlockAt 0).address, blockExtent (wBlockAt 0), 1⟩]) ∧
    HeapChecker.IsHeapCorrupt ([] ++ complementMagic (wBlockAt 0) :: []) =
      (true, [⟨(wBlockAt 0).address, blockExtent (wBlockAt 0), 1⟩]) ∧
    HeapChecker.IsHeapCorrupt ([] ++ wBlockAt 0 :: []) = (false, [])) :=
  ⟨by decide, by decide, by decide,
    isHeapCorrupt_single_block_corruption [] [] (wBlockAt 0) 0
      (by decide) (by decide) (by decide)⟩

/-! ### Claim C3 -/

/-- C3: for four same-size blocks allocated contiguously (in address
order), corrupting the magic fields of blocks 0, 1 and 3 while leaving
block 2 valid makes `IsHeapCorrupt` return true with exactly two ranges
in ascending-address order — the first with `block_count` 2 spanning
exactly blocks 0 through 1, the second with `block_count` 1 spanning
exactly block 3; restoring all three magic fields returns the heap to a
clean verdict. -/
theorem isHeapCorrupt_four_contiguous_blocks
    (b0 b1 b2 b3 : Block) (E : Nat)
    (hwf : sortedWf [b0, b1, b2, b3] = true)
    (hvalid : ∀ x ∈ [b0, b1, b2, b3], isBlockValid x = true)
    (hE0 : blockExtent b0 = E) (hE1 : blockExtent b1 = E)
    (hE3 : blockExtent b3 = E)
    (hadj1 : b1.address = blockEnd b0) (hadj2 : b2.address = blockEnd b1)
    (hadj3 : b3.address = blockEnd b2) :
    HeapChecker.IsHeapCorrupt
        [complementMagic b0, complementMagic b1, b2, complementMagic b3] =
      (true, [⟨b0.address, E + E, 2⟩, ⟨b3.address, E, 1⟩]) ∧
    HeapChecker.IsHeapCorrupt [b0, b1, b2, b3] = (false, []) := by
  have hv0 : isBlockValid b0 = true := hvalid b0 (by simp)
  have hv1 : isBlockValid b1 = true := hvalid b1 (by simp)
  have hv2 : isBlockValid b2 = true := hvalid b2 (by simp)
  have hv3 : isBlockValid b3 = true := hvalid b3 (by simp)
  refine ⟨?_, isHeapCorrupt_all_valid hvalid⟩
  have hkey :
      ([complementMagic b0, complementMagic b1, b2,
        complementMagic b3].map blockKey) =
        ([b0, b1, b2, b3].map blockKey) := rfl
  have hwfl : sortedWf [complementMagic b0, complementMagic b1, b2,
      complementMagic b3] = true := by
    rw [sortedWf_map_key _ [b0, b1, b2, b3] hkey]
    exact hwf
  have hi0 : isBlockValid (complementMagic b0) = false :=
    isBlockValid_complementMagic hv0
  have hi1 : isBlockValid (complementMagic b1) = false :=
    isBlockValid_complementMagic hv1
  have hi3 : isBlockValid (complementMagic b3) = false :=
    isBlockValid_complementMagic hv3
  have hadj : rangeEnd (newRange (complementMagic b0)) =
      (complementMagic b1).address := by
    rw [rangeEnd_newRange]
    exact hadj1.symm
  unfold HeapChecker.IsHeapCorrupt
  rw [heapWalk_eq_self hwfl]
  rw [buildRanges_cons_invalid_none hi0]
  rw [buildRanges_cons_invalid_some_adj _ hi1 hadj]
  rw [buildRanges_cons_valid_some _ hv2]
  rw [buildRanges_cons_invalid_none hi3]
  rw [buildRanges_nil_some]
  have hr1 : extendRange (newRange (complementMagic b0))
      (complementMagic b1) = ⟨b0.address, E + E, 2⟩ := by
    unfold extendRange newRange
    simp [complementMagic_extent, complementMagic_address, hE0, hE1]
  have hr2 : newRange (complementMagic b3) = ⟨b3.address, E, 1⟩ := by
    unfold newRange
    simp [complementMagic_extent, complementMagic_address, hE3]
  rw [hr1, hr2]
  rfl

/-- Witness for C3 at four concrete contiguous blocks of extent 4. -/
theorem isHeapCorrupt_four_contiguous_blocks_witness :
    sortedWf [wBlockAt 0, wBlockAt 4, wBlockAt 8, wBlockAt 12] = true ∧
    (∀ x ∈ [wBlockAt 0, wBlockAt 4, wBlockAt 8, wBlockAt 12],
      isBlockValid x = true) ∧
    blockExtent (wBlockAt 0) = 4 ∧
    (wBlockAt 4).address = blockEnd (wBlockAt 0) ∧
    (HeapChecker.IsHeapCorrupt
        [complementMagic (wBlockAt 0), complementMagic (wBlockAt 4),
          wBlockAt 8, complementMagic (wBlockAt 12)] =
      (true, [⟨(wBlockAt 0).address, 4 + 4, 2⟩,
        ⟨(wBlockAt 12).address, 4, 1⟩]) ∧
    HeapChecker.IsHeapCorrupt
        [wBlockAt 0, wBlockAt 4, wBlockAt 8, wBlockAt 12] = (false, [])) :=
  ⟨by decide, by decide, by decide, by decide,
    isHeapCorrupt_four_contiguous_blocks
      (wBlockAt 0) (wBlockAt 4) (wBlockAt 8) (wBlockAt 12) 4
      (by decide) (by decide) (by decide) (by decide) (by decide)
      (by decide) (by decide) (by decide)⟩

/-! ### Claim C4 -/

/-- C4: over a well-formed address-ordered heap, each range produced by
`IsHeapCorrupt` is a maximal run of address-adjacent corrupted blocks:
no reported range contains a valid block, the reported ranges are
pairwise non-adjacent and in ascending order, every corrupted block is
covered by some reported range, and two address-adjacent corrupted
blocks are always covered by one and the same range. -/
theorem corruptRanges_maximal_runs (heap : List Block)
    (hwf : sortedWf heap = true) :
    (∀ q ∈ (HeapChecker.IsHeapCorrupt heap).2, ∀ v ∈ heap,
        isBlockValid v = true →
        v.address < q.address ∨ rangeEnd q ≤ v.address) ∧
    ((HeapChecker.IsHeapCorrupt heap).2).Pairwise
      (fun q1 q2 => rangeEnd q1 < q2.address) ∧
    (∀ c ∈ heap, isBlockValid c = false →
        ∃ q ∈ (HeapChecker.IsHeapCorrupt heap).2, coversBlock q c) ∧
    (∀ c1 ∈ heap, ∀ c2 ∈ heap, isBlockValid c1 = false →
        isBlockValid c2 = false → blockEnd c1 = c2.address →
        ∃ q ∈ (HeapChecker.IsHeapCorrupt heap).2,
          coversBlock q c1 ∧ coversBlock q c2) := by
  obtain ⟨hp, he⟩ := sortedWf_spec heap hwf
  have hsnd : (HeapChecker.IsHeapCorrupt heap).2 = buildRanges none heap := by
    unfold HeapChecker.IsHeapCorrupt
    rw [heapWalk_eq_self hwf]
  rw [hsnd]
  refine ⟨?_, buildRanges_pairwise heap none hp he (by simp), ?_, ?_⟩
  · intro q hq v hv hvv
    exact buildRanges_valid_excluded heap none hp he (by simp) v hv hvv q hq
  · intro c hc hcv
    exact buildRanges_covers heap none hp (by simp) c hc hcv
  · intro c1 hc1 c2 hc2 hcv1 hcv2 hadj
    obtain ⟨q1, hq1, hcov1⟩ :=
      buildRanges_covers heap none hp (by simp) c1 hc1 hcv1
    obtain ⟨q2, hq2, hcov2⟩ :=
      buildRanges_covers heap none hp (by simp) c2 hc2 hcv2
    have hpair := buildRanges_pairwise heap none hp he (by simp)
    obtain ⟨hq1a, hq1e⟩ := hcov1
    obtain ⟨hq2a, hq2e⟩ := hcov2
    have hlt1 : c1.address < blockEnd c1 :=
      Nat.lt_add_of_pos_right (he c1 hc1)
    have hlt2 : c2.address < blockEnd c2 :=
      Nat.lt_add_of_pos_right (he c2 hc2)
    rcases pairwise_mem_cases hpair hq1 hq2 with heq | hlt | hlt
    · subst heq
      exact ⟨q1, hq1, ⟨hq1a, hq1e⟩, ⟨hq2a, hq2e⟩⟩
    · exact absurd (Nat.lt_of_lt_of_le hlt (Nat.le_trans hq2a
        (hadj ▸ hq1e))) (Nat.lt_irrefl _)
    · have h1 : rangeEnd q2 < c1.address := Nat.lt_of_lt_of_le hlt hq1a
      have h2 : blockEnd c1 ≤ rangeEnd q2 := by
        rw [hadj]
        exact Nat.le_trans (Nat.le_of_lt hlt2) hq2e
      exact absurd (Nat.lt_of_le_of_lt h2 (Nat.lt_trans h1 hlt1))
        (Nat.lt_irrefl _)

/-- Witness for C4 at a concrete two-block heap whose first block is
corrupted. -/
theorem corruptRanges_maximal_runs_witness :
    sortedWf [complementMagic (wBlockAt 0), wBlockAt 4] = true ∧
    ((∀ q ∈ (HeapChecker.IsHeapCorrupt
          [complementMagic (wBlockAt 0), wBlockAt 4]).2,
        ∀ v ∈ [complementMagic (wBlockAt 0), wBlockAt 4],
        isBlockValid v = true →
        v.address < q.address ∨ rangeEnd q ≤ v.address) ∧
    ((HeapChecker.IsHeapCorrupt
        [complementMagic (wBlockAt 0), wBlockAt 4]).2).Pairwise
      (fun q1 q2 => rangeEnd q1 < q2.address) ∧
    (∀ c ∈ [complementMagic (wBlockAt 0), wBlockAt 4],
        isBlockValid c = false →
        ∃ q ∈ (HeapChecker.IsHeapCorrupt
          [complementMagic (wBlockAt 0), wBlockAt 4]).2, coversBlock q c) ∧
    (∀ c1 ∈ [complementMagic (wBlockAt 0), wBlockAt 4],
        ∀ c2 ∈ [complementMagic (wBlockAt 0), wBlockAt 4],
        isBlockValid c1 = false →
        isBlockValid c2 = false → blockEnd c1 = c2.address →
        ∃ q ∈ (HeapChecker.IsHeapCorrupt
            [complementMagic (wBlockAt 0), wBlockAt 4]).2,
          coversBlock q c1 ∧ coversBlock q c2)) :=
  ⟨by decide,
    corruptRanges_maximal_runs [complementMagic (wBlockAt 0), wBlockAt 4]
      (by decide)⟩

/-! ### Claim C5 -/

/-- C5: for every heap state, `IsHeapCorrupt` returns true iff the
produced range sequence is non-empty (equivalently, iff some walked
block fails validation), and each call replaces the caller-supplied
`corrupt_ranges` container — the result is independent of whatever the
container held before the call. -/
theorem isHeapCorruptCall_replaces_container :
    (∀ (heap : List Block) (c1 c2 : List AsanCorruptBlockRange),
        HeapChecker.IsHeapCorruptCall heap c1 =
          HeapChecker.IsHeapCorruptCall heap c2) ∧
    (∀ (heap : List Block) (c : List AsanCorruptBlockRange),
        ((HeapChecker.IsHeapCorruptCall heap c).1 = true ↔
          (HeapChecker.IsHeapCorruptCall heap c).2.1 ≠ [])) ∧
    (∀ heap : List Block,
        ((HeapChecker.IsHeapCorrupt heap).1 = true ↔
          ∃ b ∈ heapWalk heap, isBlockValid b = false)) := by
  refine ⟨fun heap c1 c2 => rfl, ?_, ?_⟩
  · intro heap c
    show (!(buildRanges none (heapWalk heap)).isEmpty) = true ↔
      buildRanges none (heapWalk heap) ≠ []
    cases hrs : buildRanges none (heapWalk heap) with
    | nil => simp
    | cons q t => simp
  · intro heap
    constructor
    · intro h
      by_contra hno
      have hall : ∀ b ∈ heapWalk heap, isBlockValid b = true := by
        intro b hb
        cases hbv : isBlockValid b with
        | true => rfl
        | false => exact absurd ⟨b, hb, hbv⟩ hno
      have hnil : buildRanges none (heapWalk heap) = [] :=
        buildRanges_all_valid_none _ hall
      unfold HeapChecker.IsHeapCorrupt at h
      rw [hnil] at h
      exact absurd h (by simp)
    · rintro ⟨b, hb, hbv⟩
      have hne := buildRanges_ne_nil_of_invalid (heapWalk heap) ⟨b, hb, hbv⟩
      show (!(buildRanges none (heapWalk heap)).isEmpty) = true
      cases hrs : buildRanges none (heapWalk heap) with
      | nil => exact absurd hrs hne
      | cons q t => rfl

/-! ### Claim C6 -/

/-- C6: `IsHeapCorrupt` is deterministic and idempotent — identical heap
states yield identical boolean results and range sequences, a second
call on the state left by a first call (no intervening heap mutation)
yields the identical result, and on a well-formed address-ordered heap
the ranges are listed in ascending-address order. -/
theorem isHeapCorrupt_deterministic_idempotent :
    (∀ heap1 heap2 : List Block, heap1 = heap2 →
        HeapChecker.IsHeapCorrupt heap1 = HeapChecker.IsHeapCorrupt heap2) ∧
    (∀ (heap : List Block) (c : List AsanCorruptBlockRange),
        HeapChecker.IsHeapCorruptCall
            (HeapChecker.IsHeapCorruptCall heap c).2.2
            (HeapChecker.IsHeapCorruptCall heap c).2.1 =
          HeapChecker.IsHeapCorruptCall heap c) ∧
    (∀ heap : List Block, sortedWf heap = true →
        ((HeapChecker.IsHeapCorrupt heap).2).Pairwise
          (fun q1 q2 => q1.address < q2.address)) := by
  refine ⟨fun heap1 heap2 h => by rw [h], fun heap c => rfl, ?_⟩
  intro heap hwf
  obtain ⟨hp, he⟩ := sortedWf_spec heap hwf
  have hsnd : (HeapChecker.IsHeapCorrupt heap).2 = buildRanges none heap := by
    unfold HeapChecker.IsHeapCorrupt
    rw [heapWalk_eq_self hwf]
  rw [hsnd]
  refine (buildRanges_pairwise heap none hp he (by simp)).imp ?_
  intro q1 q2 h
  exact Nat.lt_of_le_of_lt (Nat.le_add_right _ _) h

/-- Witness for C6: ascending order at a concrete heap with two corrupt
ranges, determinism at a concrete equal pair. -/
theorem isHeapCorrupt_deterministic_idempotent_witness :
    sortedWf [complementMagic (wBlockAt 0), wBlockAt 4,
      complementMagic (wBlockAt 8)] = true ∧
    ((HeapChecker.IsHeapCorrupt [complementMagic (wBlockAt 0), wBlockAt 4,
        complementMagic (wBlockAt 8)]).2).Pairwise
      (fun q1 q2 => q1.address < q2.address) :=
  ⟨by decide,
    (isHeapCorrupt_deterministic_idempotent).2.2
      [complementMagic (wBlockAt 0), wBlockAt 4,
        complementMagic (wBlockAt 8)] (by decide)⟩

/-! ### Claim C7 -/

/-- C7: a forward `ShadowWalker` yields block headers in strictly
increasing address order with no two yielded blocks overlapping; `Next`
yields nothing once no further header exists before the range boundary
(and only then); and a walker over an empty range, or over a range
containing no headers, yields no blocks — there is no error outcome in
the interface at all, exhaustion is the only terminal signal. -/
theorem shadowWalker_forward_spec :
    (∀ (shadow : List Block) (rb re : Nat),
        (∀ b ∈ shadow, 0 < blockExtent b) →
        (walkAll shadow false rb re).Pairwise
          (fun a b => a.address < b.address ∧ blockEnd a ≤ b.address)) ∧
    (∀ (shadow : List Block) (w : ShadowWalker), w.reverse = false →
        (w.next shadow = none ↔
          ∀ b ∈ shadow, ¬(w.cursor ≤ b.address ∧ b.address < w.range_end))) ∧
    (∀ (shadow : List Block) (rb re : Nat),
        (∀ b ∈ shadow, ¬(rb ≤ b.address ∧ b.address < re)) →
        walkAll shadow false rb re = []) := by
  refine ⟨?_, ?_, ?_⟩
  · intro shadow rb re he
    exact walk_forward_pairwise shadow he (shadow.length + 1)
      (ShadowWalker.init false rb re) rfl
  · intro shadow w hrev
    constructor
    · intro h
      cases hf : findFirstHeader w.cursor w.range_end shadow with
      | none => exact findFirstHeader_none_forall _ _ _ hf
      | some b =>
        rw [ShadowWalker.next_forward_some shadow hrev hf] at h
        exact absurd h (by simp)
    · intro h
      exact ShadowWalker.next_forward_none shadow hrev
        (findFirstHeader_none_of_forall _ _ _ h)
  · intro shadow rb re h
    unfold walkAll
    have hnone : (ShadowWalker.init false rb re).next shadow = none := by
      refine ShadowWalker.next_forward_none shadow rfl ?_
      refine findFirstHeader_none_of_forall _ _ _ ?_
      intro c hc hcc
      exact h c hc hcc
    rw [ShadowWalker.walk_succ_none shadow _ hnone]

/-- Witness for C7: a walk over a populated range, an exhausted `Next`,
and a walk over an empty range, all at concrete inputs. -/
theorem shadowWalker_forward_spec_witness :
    ((∀ b ∈ [wBlockAt 0, wBlockAt 4], 0 < blockExtent b) ∧
      (walkAll [wBlockAt 0, wBlockAt 4] false 0 10).Pairwise
        (fun a b => a.address < b.address ∧ blockEnd a ≤ b.address)) ∧
    ((∀ b ∈ [wBlockAt 0], ¬((5 : Nat) ≤ b.address ∧ b.address < 5)) ∧
      walkAll [wBlockAt 0] false 5 5 = []) :=
  ⟨⟨by decide,
    shadowWalker_forward_spec.1 [wBlockAt 0, wBlockAt 4] 0 10 (by decide)⟩,
   ⟨by decide,
    shadowWalker_forward_spec.2.2 [wBlockAt 0] 5 5 (by decide)⟩⟩

/-! ### Claim C8 -/

/-- C8: `ChecksumEngine.Compute` digests the block's header fields and
trailer bytes and excludes the digest field itself — it is invariant
under any change of the stored checksum, and fully determined by the
header fields (magic, sizes, state) together with the trailer bytes, so
the digest is stable (the same bytes always give the same digest);
`Verify` returns true iff the stored checksum equals the recomputed
digest. -/
theorem checksumEngine_compute_verify_spec :
    (∀ (b : Block) (c : Nat),
        ChecksumEngine.Compute (setBlockChecksum b c) =
          ChecksumEngine.Compute b) ∧
    (∀ b b2 : Block, b.magic = b2.magic → b.header_size = b2.header_size →
        b.body.length = b2.body.length → b.state = b2.state →
        b.trailer = b2.trailer →
        ChecksumEngine.Compute b = ChecksumEngine.Compute b2) ∧
    (∀ b : Block, ChecksumEngine.Verify b = true ↔
        b.checksum = ChecksumEngine.Compute b) := by
  refine ⟨fun b c => rfl, ?_, fun b => by simp [ChecksumEngine.Verify]⟩
  intro b b2 h1 h2 h3 h4 h5
  unfold ChecksumEngine.Compute checksummedBytes
  rw [h1, h2, h3, h4, h5]

/-- A block sharing the checksummed content of `wBlockAt 0` but with a
different checksum, address and body byte. -/
def wBlockVariant : Block :=
  { wBlockAt 0 with checksum := 999, address := 55, body := [9] }

/-- Witness for C8: the digest agrees across two concrete blocks that
differ only in checksum, address and body contents. -/
theorem checksumEngine_compute_verify_spec_witness :
    ((wBlockAt 0).magic = wBlockVariant.magic ∧
      (wBlockAt 0).trailer = wBlockVariant.trailer) ∧
    ChecksumEngine.Compute (setBlockChecksum (wBlockAt 0) 12345) =
      ChecksumEngine.Compute (wBlockAt 0) ∧
    ChecksumEngine.Compute (wBlockAt 0) =
      ChecksumEngine.Compute wBlockVariant ∧
    (ChecksumEngine.Verify (wBlockAt 0) = true ↔
      (wBlockAt 0).checksum = ChecksumEngine.Compute (wBlockAt 0)) :=
  ⟨⟨by decide, by decide⟩,
    checksumEngine_compute_verify_spec.1 (wBlockAt 0) 12345,
    checksumEngine_compute_verify_spec.2.1 (wBlockAt 0) wBlockVariant
      (by decide) (by decide) (by decide) (by decide) (by decide),
    checksumEngine_compute_verify_spec.2.2 (wBlockAt 0)⟩

/-! ### Claim C9 -/

/-- C9: the walk behind `IsHeapCorrupt` visits every tracked block of a
well-formed address-ordered heap — no hypothesis restricts a block's
allocation or quarantine state — and any block that fails validation,
in whatever state (in particular a block corrupted after quarantine),
makes the call return true with some reported range covering it. -/
theorem isHeapCorrupt_visits_every_block :
    (∀ heap : List Block, sortedWf heap = true →
        ∀ b ∈ heap, b ∈ heapWalk heap) ∧
    (∀ (heap : List Block) (b : Block), sortedWf heap = true → b ∈ heap →
        isBlockValid b = false →
        (HeapChecker.IsHeapCorrupt heap).1 = true ∧
          ∃ q ∈ (HeapChecker.IsHeapCorrupt heap).2, coversBlock q b) := by
  constructor
  · intro heap hwf b hb
    rw [heapWalk_eq_self hwf]
    exact hb
  · intro heap b hwf hb hbv
    obtain ⟨hp, _⟩ := sortedWf_spec heap hwf
    have hwalk := heapWalk_eq_self hwf
    constructor
    · show (!(buildRanges none (heapWalk heap)).isEmpty) = true
      rw [hwalk]
      have hne := buildRanges_ne_nil_of_invalid heap ⟨b, hb, hbv⟩
      cases hrs : buildRanges none heap with
      | nil => exact absurd hrs hne
      | cons q t => rfl
    · have hsnd : (HeapChecker.IsHeapCorrupt heap).2 =
          buildRanges none heap := by
        unfold HeapChecker.IsHeapCorrupt
        rw [hwalk]
      rw [hsnd]
      exact buildRanges_covers heap none hp (by simp) b hb hbv

/-- Witness for C9 at a concrete heap whose only block is quarantined
and corrupted. -/
theorem isHeapCorrupt_visits_every_block_witness :
    (sortedWf [wQuarantinedCorrupt] = true ∧
      wQuarantinedCorrupt ∈ [wQuarantinedCorrupt] ∧
      wQuarantinedCorrupt ∈ heapWalk [wQuarantinedCorrupt]) ∧
    (wQuarantinedCorrupt.state = BlockState.quarantined ∧
      isBlockValid wQuarantinedCorrupt = false ∧
      ((HeapChecker.IsHeapCorrupt [wQuarantinedCorrupt]).1 = true ∧
        ∃ q ∈ (HeapChecker.IsHeapCorrupt [wQuarantinedCorrupt]).2,
          coversBlock q wQuarantinedCorrupt)) :=
  ⟨⟨by decide, by simp,
    isHeapCorrupt_visits_every_block.1 [wQuarantinedCorrupt] (by decide)
      wQuarantinedCorrupt (by simp)⟩,
   ⟨by decide, by decide,
    isHeapCorrupt_visits_every_block.2 [wQuarantinedCorrupt]
      wQuarantinedCorrupt (by decide) (by simp) (by decide)⟩⟩

/-! ### Claim C10 -/

/-- C10: `IsHeapCorrupt` never mutates the heap, the shadow metadata or
any block bytes — in the state-passing model the heap component returned
by a call is the argument heap itself, so any later call sees exactly
the state it would have seen without the earlier call; and externally
reverting an injected corruption (complementing the magic field back, or
restoring the checksum field) restores exactly the pre-corruption heap. -/
theorem isHeapCorrupt_never_mutates :
    (∀ (heap : List Block) (c : List AsanCorruptBlockRange),
        (HeapChecker.IsHeapCorruptCall heap c).2.2 = heap) ∧
    (∀ (heap : List Block) (c c2 : List AsanCorruptBlockRange),
        HeapChecker.IsHeapCorruptCall
            (HeapChecker.IsHeapCorruptCall heap c).2.2 c2 =
          HeapChecker.IsHeapCorruptCall heap c2) ∧
    (∀ (h1 h2 : List Block) (b : Block),
        h1 ++ complementMagic (complementMagic b) :: h2 = h1 ++ b :: h2) ∧
    (∀ (b : Block) (c : Nat),
        setBlockChecksum (setBlockChecksum b c) b.checksum = b) := by
  refine ⟨fun heap c => rfl, fun heap c c2 => rfl, ?_, fun b c => rfl⟩
  intro h1 h2 b
  rw [complementMagic_involutive]
